import Mathlib

/-!
# Verification of the GLOBALISE places explorer core logic

Shallow embedding of the core logic of `location_search.py` (plus the
`create_map` variant in `mapfunction.py`), with the claims of the
specification settled as theorems.

Modelling conventions:
* Python strings are Lean `String`s; character data is processed as `List Char`.
  `str.lower()` is modelled by mapping `Char.toLower` (ASCII case folding; all
  strings appearing in the claims are ASCII).
* Python floats are modelled as exact rationals `ℚ`.  The score pipeline only
  adds `0.1` and compares against `0.3`; no claim hinges on IEEE rounding.
* `difflib.SequenceMatcher(None, a, b).ratio()` is embedded faithfully from the
  CPython source of `difflib`, including the `autojunk` purge of popular
  elements (active when `len(b) >= 200`).  With `isjunk = None` the junk set
  `bjunk` is empty, so the two final junk-extension loops of
  `find_longest_match` never run and are omitted.  Loops are made structural
  with fuel arguments whose bounds provably dominate the number of iterations.
* pandas operations are modelled by their documented element-wise semantics on
  lists of rows.
-/

namespace GPlaces

namespace Difflib

/-- The result triple of `find_longest_match`: start index in `a`, start index
in `b`, and the size of the matching block. -/
structure MatchBlock where
  besti : Nat
  bestj : Nat
  bestsize : Nat
deriving DecidableEq

/-- The ascending list of positions of character `c` in `b`; this is the value
`b2j[c]` built by `SequenceMatcher.__chain_b` before the autojunk purge. -/
def positions (b : List Char) (c : Char) : List Nat :=
  (List.range b.length).filter (fun j => b.getD j 'a' = c)

/-- The popularity threshold `ntest = n // 100 + 1` of the autojunk heuristic. -/
def ntest (n : Nat) : Nat := n / 100 + 1

/-- `b2j` lookup after the autojunk purge: with `isjunk = None`, an element is
dropped from `b2j` iff `len(b) >= 200` and it occurs more than `ntest` times. -/
def b2j (b : List Char) (c : Char) : List Nat :=
  let idxs := positions b c
  if 200 ≤ b.length ∧ ntest b.length < idxs.length then [] else idxs

/-- The inner loop of `find_longest_match` over `b2j.get(a[i])`: builds
`newj2len` from the previous row's `j2len` and updates the best block.
`j < blo` is Python's `continue`, `bhi ≤ j` is Python's `break` (the position
lists are ascending).  `j2len.get(j-1, 0)` reads the previous row; Python's
`j-1` at `j = 0` is the absent key `-1`, hence the explicit zero. -/
def innerRow (blo bhi i : Nat) (j2len : Nat → Nat) :
    List Nat → (Nat → Nat) → MatchBlock → ((Nat → Nat) × MatchBlock)
  | [], nj, st => (nj, st)
  | j :: js, nj, st =>
    if j < blo then innerRow blo bhi i j2len js nj st
    else if bhi ≤ j then (nj, st)
    else
      let k := (if j = 0 then 0 else j2len (j - 1)) + 1
      innerRow blo bhi i j2len js (fun x => if x = j then k else nj x)
        (if st.bestsize < k then ⟨i + 1 - k, j + 1 - k, k⟩ else st)

/-- The outer loop of `find_longest_match` over `i in range(alo, ahi)`,
written as recursion on the number `n` of remaining rows starting at row `i`. -/
def dpLoop (a : List Char) (bj : Char → List Nat) (blo bhi : Nat) :
    Nat → Nat → (Nat → Nat) → MatchBlock → MatchBlock
  | _, 0, _, st => st
  | i, n + 1, j2len, st =>
    let r := innerRow blo bhi i j2len (bj (a.getD i 'a')) (fun _ => 0) st
    dpLoop a bj blo bhi (i + 1) n r.1 r.2

/-- The first extension loop of `find_longest_match` (leftward over non-junk
elements; `bjunk` is empty here).  Each iteration needs `alo < besti` and
decrements `besti`, so fuel `besti` dominates the iteration count. -/
def extendLeft (a b : List Char) (alo blo : Nat) : Nat → MatchBlock → MatchBlock
  | 0, st => st
  | fuel + 1, st =>
    if alo < st.besti ∧ blo < st.bestj ∧
        a.getD (st.besti - 1) 'a' = b.getD (st.bestj - 1) 'a' then
      extendLeft a b alo blo fuel ⟨st.besti - 1, st.bestj - 1, st.bestsize + 1⟩
    else st

/-- The second extension loop of `find_longest_match` (rightward over non-junk
elements).  Each iteration needs `bestj + bestsize < bhi` and increments
`bestsize`, so fuel `bhi` dominates the iteration count. -/
def extendRight (a b : List Char) (ahi bhi : Nat) : Nat → MatchBlock → MatchBlock
  | 0, st => st
  | fuel + 1, st =>
    if st.besti + st.bestsize < ahi ∧ st.bestj + st.bestsize < bhi ∧
        a.getD (st.besti + st.bestsize) 'a' = b.getD (st.bestj + st.bestsize) 'a' then
      extendRight a b ahi bhi fuel ⟨st.besti, st.bestj, st.bestsize + 1⟩
    else st

/-- `SequenceMatcher.find_longest_match(alo, ahi, blo, bhi)` with `isjunk =
None`: the dynamic-programming scan followed by the two non-junk extension
loops (the junk extension loops never execute since `bjunk` is empty). -/
def find_longest_match (a b : List Char) (bj : Char → List Nat)
    (alo ahi blo bhi : Nat) : MatchBlock :=
  let st := dpLoop a bj blo bhi alo (ahi - alo) (fun _ => 0) ⟨alo, blo, 0⟩
  let st := extendLeft a b alo blo st.besti st
  extendRight a b ahi bhi bhi st

/-- Total size of all matching blocks that `get_matching_blocks` finds inside
the window `a[alo:ahi]` × `b[blo:bhi]`: the longest match plus the totals of
the two recursive sub-windows.  `ratio` only needs this sum (sorting and
collapsing adjacent blocks preserve it).  The window measure
`(ahi - alo) + (bhi - blo)` shrinks at every recursive call, so fuel exceeding
it makes the fuel case unreachable. -/
def matchTotalF (a b : List Char) (bj : Char → List Nat) :
    Nat → Nat → Nat → Nat → Nat → Nat
  | 0, _, _, _, _ => 0
  | fuel + 1, alo, ahi, blo, bhi =>
    let m := find_longest_match a b bj alo ahi blo bhi
    if m.bestsize = 0 then 0
    else
      m.bestsize + matchTotalF a b bj fuel alo m.besti blo m.bestj +
        matchTotalF a b bj fuel (m.besti + m.bestsize) ahi (m.bestj + m.bestsize) bhi

/-- A match block lies inside the window `a[alo:ahi] × b[blo:bhi]`. -/
def InWindow (alo ahi blo bhi : Nat) (m : MatchBlock) : Prop :=
  alo ≤ m.besti ∧ m.besti + m.bestsize ≤ ahi ∧
    blo ≤ m.bestj ∧ m.bestj + m.bestsize ≤ bhi

/-- A character is *visible* to the dynamic-programming scan when it still has
an entry in `b2j` (i.e. it was not purged by the autojunk heuristic). -/
def visChar (b : List Char) (c : Char) : Bool := b2j b c ≠ []

/-- Length of the maximal visible run of `b` ending at index `i` (0 when the
character at `i` is purged).  Used to reason about self-comparison. -/
def rvis (b : List Char) : Nat → Nat
  | 0 => if visChar b (b.getD 0 'a') then 1 else 0
  | i + 1 => if visChar b (b.getD (i + 1) 'a') then rvis b i + 1 else 0

/-- `matches = sum(triple[-1] for triple in self.get_matching_blocks())`. -/
def matchesOf (a b : List Char) : Nat :=
  matchTotalF a b (b2j b) (a.length + b.length + 1) 0 a.length 0 b.length

/-- `difflib._calculate_ratio(matches, length)`: `2 * matches / length`, and
`1.0` when `length` is zero (two empty sequences). -/
def calcRatioOf (mtc length : Nat) : ℚ :=
  if length = 0 then 1 else (2 * mtc : ℚ) / (length : ℚ)

/-- `SequenceMatcher(None, a, b).ratio()`. -/
def ratioOf (a b : List Char) : ℚ :=
  calcRatioOf (matchesOf a b) (a.length + b.length)

end Difflib

/-- `s.lower()` as character data (ASCII case folding). -/
def lowerData (s : String) : List Char := s.data.map Char.toLower

/-- `fuzzy_match_score(s1, s2)` from `location_search.py`:
`SequenceMatcher(None, s1.lower(), s2.lower()).ratio()`. -/
def fuzzy_match_score (s1 s2 : String) : ℚ :=
  Difflib.ratioOf (lowerData s1) (lowerData s2)

/-- One row of the locations table.  Coordinates are kept as raw strings, as
in the CSV; `create_map` parses them, `search_locations` copies them through. -/
structure PlaceRecord where
  glob_id : String
  label : String
  pref_label : String
  label_type : String
  latitude : String
  longitude : String
deriving DecidableEq

/-- One row of the scores table that `search_locations` builds. -/
structure ScoredRecord where
  glob_id : String
  label : String
  pref_label : String
  label_type : String
  latitude : String
  longitude : String
  score : ℚ
deriving DecidableEq

/-- The per-row scoring step of `search_locations`: the fuzzy score of the
query against the label, plus a bonus of `0.1` exactly when
`label == pref_label` (no capping). -/
def scoreRecord (query : String) (row : PlaceRecord) : ScoredRecord :=
  let base := fuzzy_match_score query row.label
  { glob_id := row.glob_id, label := row.label, pref_label := row.pref_label,
    label_type := row.label_type, latitude := row.latitude,
    longitude := row.longitude,
    score := if row.label = row.pref_label then base + 1 / 10 else base }

/-- Descending comparison on scores used by
`results_df.sort_values('score', ascending=False)`. -/
def scoreGE (x y : ScoredRecord) : Prop := y.score ≤ x.score

instance : DecidableRel scoreGE := fun x y => inferInstanceAs (Decidable (y.score ≤ x.score))

instance : IsTotal ScoredRecord scoreGE := ⟨fun x y => le_total y.score x.score⟩

instance : IsTrans ScoredRecord scoreGE :=
  ⟨fun _ _ _ h1 h2 => le_trans h2 h1⟩

/-- `results_df.sort_values('score', ascending=False)`, modelled as a stable
descending sort.  (pandas' default `kind='quicksort'` does not document a tie
order; the stable model is one concrete refinement of it and agrees with
pandas whenever scores are pairwise distinct.) -/
def sortByScoreDesc (l : List ScoredRecord) : List ScoredRecord :=
  List.insertionSort scoreGE l

/-- `search_locations(df, query, top_n)`: empty result on empty query, else
score every row, sort by score descending, truncate to `top_n`, and only then
drop scores `<= 0.3`. -/
def search_locations (df : List PlaceRecord) (query : String) (top_n : Nat) :
    List ScoredRecord :=
  if query = "" then []
  else
    ((sortByScoreDesc (df.map (scoreRecord query))).take top_n).filter
      (fun r => (3 : ℚ) / 10 < r.score)

/-! ## Coordinate parsing and `create_map` -/

/-- The value of one cell after `pd.to_numeric(..., errors='coerce')`: a finite
number, a signed infinity, or NaN (which `coerce` also produces for strings
that do not parse). -/
inductive PNum where
  | nan : PNum
  | inf : Bool → PNum
  | fin : ℚ → PNum
deriving DecidableEq

/-- Numeric value of a digit run. -/
def digitsVal (l : List Char) : Nat :=
  l.foldl (fun acc c => 10 * acc + (c.toNat - '0'.toNat)) 0

/-- `10 ^ n` as a structurally recursive function (kept elementary so that
concrete parses evaluate cheaply). -/
def tenPow : Nat → Nat
  | 0 => 1
  | n + 1 => 10 * tenPow n

/-- Parse an unsigned decimal literal `digits[.digits]` (at least one digit
overall) to a numerator/denominator pair; the value is `n / d`. -/
def parseUnsigned (s : List Char) : Option (Nat × Nat) :=
  let ipart := s.takeWhile Char.isDigit
  let rest := s.dropWhile Char.isDigit
  match rest with
  | [] => if ipart.isEmpty then none else some (digitsVal ipart, 1)
  | '.' :: rest2 =>
    let fpart := rest2.takeWhile Char.isDigit
    let rest3 := rest2.dropWhile Char.isDigit
    if rest3.isEmpty ∧ ¬(ipart.isEmpty ∧ fpart.isEmpty) then
      some (digitsVal ipart * tenPow fpart.length + digitsVal fpart,
        tenPow fpart.length)
    else none
  | _ => none

/-- Element-wise model of `pd.to_numeric(cell, errors='coerce')` on a string
cell.  pandas' float parser (`precise_xstrtod`, shared with `read_csv`)
accepts an optional sign followed by either a decimal literal or the literals
`inf` / `infinity` (case-insensitive, like Python's `float`), producing an
IEEE infinity for the latter; everything else is coerced to NaN.  Exponents
and surrounding whitespace are not needed by any claim and are not modelled
(such strings would only add further finite/NaN values). -/
def parseNum (s : String) : PNum :=
  let t := s.data
  let neg := t.headD ' ' = '-'
  let u := if t.headD ' ' = '-' ∨ t.headD ' ' = '+' then t.tail else t
  let lu := u.map Char.toLower
  if lu = "inf".data ∨ lu = "infinity".data then PNum.inf neg
  else if lu = "nan".data then PNum.nan
  else
    match parseUnsigned u with
    | none => PNum.nan
    | some nd => PNum.fin (mkRat (if neg then -(nd.1 : Int) else (nd.1 : Int)) nd.2)

/-- A row of the dataframe after `create_map` has coerced its coordinate
columns to numeric values. -/
structure NumRow where
  glob_id : String
  label : String
  pref_label : String
  label_type : String
  latitude : PNum
  longitude : PNum
deriving DecidableEq

/-- Coercing one record's coordinates to numbers. -/
def toNumRow (r : PlaceRecord) : NumRow :=
  ⟨r.glob_id, r.label, r.pref_label, r.label_type, parseNum r.latitude,
    parseNum r.longitude⟩

/-- The coordinate-cleaning chain at the top of `create_map`:
drop rows whose raw `Latitude` is the string `"Not available"`, coerce both
coordinate columns with `pd.to_numeric(errors='coerce')`, drop rows where
either coordinate is NaN (`dropna`), and drop rows whose coordinates are both
exactly zero. -/
def coordClean (df : List PlaceRecord) : List NumRow :=
  let d1 := df.filter (fun r => r.latitude ≠ "Not available")
  let d2 := d1.map toNumRow
  let d3 := d2.filter (fun r => r.latitude ≠ PNum.nan ∧ r.longitude ≠ PNum.nan)
  d3.filter (fun r => ¬(r.latitude = PNum.fin 0 ∧ r.longitude = PNum.fin 0))

/-- The data handed to the pydeck scatterplot layer (the part of the deck the
claims are about). -/
structure MapDeck where
  data : List NumRow
deriving DecidableEq

instance {ε α : Type} [DecidableEq ε] [DecidableEq α] :
    DecidableEq (Except ε α) := fun a b =>
  match a, b with
  | Except.ok x, Except.ok y =>
    if h : x = y then isTrue (by rw [h]) else isFalse (fun hc => h (by cases hc; rfl))
  | Except.error x, Except.error y =>
    if h : x = y then isTrue (by rw [h]) else isFalse (fun hc => h (by cases hc; rfl))
  | Except.ok _, Except.error _ => isFalse (fun hc => Except.noConfusion hc)
  | Except.error _, Except.ok _ => isFalse (fun hc => Except.noConfusion hc)

/-- `create_map(df)`: after the coordinate cleaning, only rows with
`label_type == 'PREF'` are kept; the guarded branch builds the deck only when
that filtered frame is non-empty, and the trailing
`return st.pydeck_chart(deck)` raises `UnboundLocalError` when the branch was
skipped (the local `deck` was never assigned). -/
def create_map (df : List PlaceRecord) : Except String MapDeck :=
  let filtered := (coordClean df).filter (fun r => r.label_type = "PREF")
  if 0 < filtered.length then Except.ok ⟨filtered⟩
  else Except.error "UnboundLocalError: deck"

/-- The predicate a record must satisfy for its `toNumRow` image to survive
`coordClean` (derived characterisation, proved equivalent below). -/
def keptRow (r : PlaceRecord) : Bool :=
  parseNum r.latitude ≠ PNum.nan ∧ parseNum r.longitude ≠ PNum.nan ∧
    ¬(parseNum r.latitude = PNum.fin 0 ∧ parseNum r.longitude = PNum.fin 0)

/-- The *usable location* predicate in the words of the specification
(§4.1): latitude and longitude both parse as **finite** numbers and are not
both exactly zero. -/
def usableLocationSpec (r : PlaceRecord) : Bool :=
  (match parseNum r.latitude, parseNum r.longitude with
    | PNum.fin x, PNum.fin y => ¬(x = 0 ∧ y = 0)
    | _, _ => false)

/-! ## The session table, column cleaning, and upload merging -/

/-- A dataframe as column names plus row cells (cells aligned with columns). -/
structure Table where
  columns : List String
  rows : List (List String)
deriving DecidableEq

/-- ASCII whitespace stripped by `str.strip()` from both ends of a column
name. -/
def isSpaceChar (c : Char) : Bool :=
  c = ' ' ∨ c = '\t' ∨ c = '\n' ∨ c = '\r'

/-- `name.strip()` on a column name. -/
def stripName (s : String) : String :=
  ⟨((s.data.dropWhile isSpaceChar).reverse.dropWhile isSpaceChar).reverse⟩

/-- The column-cleaning block (`df.columns = df.columns.str.strip()` followed
by `df = df.loc[:, ~df.columns.str.contains('^Unnamed')]`): strip whitespace
from every column name, then keep only the columns whose stripped name does
not start with `Unnamed`, projecting every row onto the kept columns. -/
def cleanTable (t : Table) : Table :=
  let stripped := t.columns.map stripName
  let keep := (List.range stripped.length).filter
    (fun i => ¬("Unnamed".data.isPrefixOf (stripped.getD i "").data))
  ⟨keep.map (fun i => stripped.getD i ""),
    t.rows.map (fun r => keep.map (fun i => r.getD i ""))⟩

/-- The per-session state: the working table `st.session_state.locations_df`
and the set `st.session_state.uploaded_files_processed` of upload
fingerprints already merged. -/
structure SessionState where
  locations_df : Table
  uploaded_files_processed : List String
deriving DecidableEq

/-- The upload fingerprint `f"{uploaded_file.name}_{uploaded_file.size}"`. -/
def fileId (name : String) (size : Nat) : String :=
  name ++ "_" ++ toString size

/-- What the upload block reports to the user: the success message with the
new and total record counts, or the "already uploaded" notice with the
unchanged total. -/
inductive MergeReport where
  | merged (newRecords total : Nat)
  | alreadyPresent (total : Nat)
deriving DecidableEq

/-- The module-level upload merge block: if the fingerprint has not been seen,
clean the uploaded table's columns, concatenate its rows onto the session
table (`pd.concat(..., ignore_index=True)`), and record the fingerprint;
otherwise change nothing and report that the file is already present.
(CSV parsing itself is an external collaborator; `extra` is the parsed
upload.) -/
def merge_upload (st : SessionState) (name : String) (size : Nat)
    (extra : Table) : SessionState × MergeReport :=
  let fid := fileId name size
  if fid ∈ st.uploaded_files_processed then
    (st, MergeReport.alreadyPresent st.locations_df.rows.length)
  else
    let extraClean := cleanTable extra
    ({ locations_df := ⟨st.locations_df.columns,
        st.locations_df.rows ++ extraClean.rows⟩,
       uploaded_files_processed := fid :: st.uploaded_files_processed },
     MergeReport.merged extraClean.rows.length
       (st.locations_df.rows.length + extraClean.rows.length))

/-- The cleaning step of the module-level load block as it acts on the
session state: the stored frame's column labels are re-assigned in place
(`df.columns = df.columns.str.strip()`), its row data is untouched, and the
cleaned, column-filtered table is the one handed to search and display. -/
def renderLoadStep (s : SessionState) : SessionState × Table :=
  ({ s with locations_df :=
      ⟨s.locations_df.columns.map stripName, s.locations_df.rows⟩ },
    cleanTable s.locations_df)

/-! ## Concrete instances used to witness and refute claims -/

/-- A record whose label is the preferred label (earns the `0.1` bonus). -/
def bonusRec : PlaceRecord := ⟨"G1", "ab", "ab", "PREF", "1.0", "2.0"⟩

/-- A record whose label differs from the preferred label (no bonus), with a
fuzzy score of `4/5` against the query `"ab"`. -/
def altRec : PlaceRecord := ⟨"GX", "aab", "zz", "ALT", "1.0", "2.0"⟩

/-- Eleven records: ten copies of `bonusRec` (score `1.1` for query `"ab"`)
followed by `altRec` (score `0.8`), so `altRec` is ranked 11th. -/
def exStore : List PlaceRecord := List.replicate 10 bonusRec ++ [altRec]

/-- A record with unparseable coordinates, still searchable. -/
def naRec : PlaceRecord := ⟨"G2", "ab", "ab", "PREF", "Not available", "x"⟩

/-- A record whose latitude parses to an IEEE infinity: not finite, yet kept
by `create_map`'s cleaning chain. -/
def infRec : PlaceRecord := ⟨"G3", "L", "L", "PREF", "inf", "1.0"⟩

/-!
# Theorems

First the supporting lemmas, then one theorem per claim (with witnesses and
counterexamples where required).
-/

/-- **C8**: for every store and every `top_n`, searching with the empty query
returns the empty sequence.  (`search_locations` is a total function, so in
particular no error is raised.) -/
theorem c8_empty_query (df : List PlaceRecord) (top_n : Nat) :
    search_locations df "" top_n = [] := by
  simp [search_locations]

/-- **C3**: the score of a record is the fuzzy score of its label plus `0.1`
exactly when `label = pref_label` (the if-and-only-if characterisation); a
record with `label = pref_label` scores exactly `0.1` more than an
otherwise-identical record whose label differs from its `pref_label`; the
bonus is uncapped, so the score can exceed `1` (witnessed by `bonusRec` and
the query `"ab"`, which give `1.1`). -/
theorem c3_pref_bonus :
    (∀ (query : String) (row : PlaceRecord),
      (scoreRecord query row).score =
        fuzzy_match_score query row.label +
          (if row.label = row.pref_label then 1 / 10 else 0)) ∧
    (∀ (query : String) (r1 r2 : PlaceRecord), r1.label = r2.label →
      r1.label = r1.pref_label → r2.label ≠ r2.pref_label →
      (scoreRecord query r1).score = (scoreRecord query r2).score + 1 / 10) ∧
    (scoreRecord "ab" bonusRec).score = 11 / 10 ∧ (1 : ℚ) < 11 / 10 := by
  refine ⟨?_, ?_, ?_, by norm_num⟩
  · intro query row
    by_cases h : row.label = row.pref_label <;> simp [scoreRecord, h]
  · intro query r1 r2 hl h1 h2
    simp only [scoreRecord]
    rw [if_pos h1, if_neg h2, hl]
  · have h : Difflib.matchesOf (lowerData "ab") (lowerData "ab") = 2 := by
      with_unfolding_all decide
    simp only [scoreRecord, bonusRec, fuzzy_match_score, Difflib.ratioOf, h]
    norm_num [Difflib.calcRatioOf, lowerData]

/-- Witness for `c3_pref_bonus`: the bonus conjunct applied to two concrete
records that differ only in their preferred label. -/
theorem c3_pref_bonus_witness :
    (scoreRecord "ku" ⟨"g", "ab", "ab", "PREF", "", ""⟩).score =
      (scoreRecord "ku" ⟨"g", "ab", "cd", "ALT", "", ""⟩).score + 1 / 10 :=
  c3_pref_bonus.2.1 "ku" ⟨"g", "ab", "ab", "PREF", "", ""⟩
    ⟨"g", "ab", "cd", "ALT", "", ""⟩ rfl rfl (by decide)

/-- **C6**: merging the same upload fingerprint a second time is a no-op that
reports "already present" with the unchanged total; store size never shrinks
under a merge; and a first merge of a fresh fingerprint appends exactly the
cleaned upload's rows. -/
theorem c6_merge_idempotent (st : SessionState) (name : String) (size : Nat)
    (extra extra2 : Table) :
    (merge_upload (merge_upload st name size extra).1 name size extra2 =
      ((merge_upload st name size extra).1,
        MergeReport.alreadyPresent
          (merge_upload st name size extra).1.locations_df.rows.length)) ∧
    st.locations_df.rows.length ≤
      (merge_upload st name size extra).1.locations_df.rows.length ∧
    (fileId name size ∉ st.uploaded_files_processed →
      (merge_upload st name size extra).1.locations_df.rows =
        st.locations_df.rows ++ (cleanTable extra).rows ∧
      (merge_upload st name size extra).2 =
        MergeReport.merged (cleanTable extra).rows.length
          (st.locations_df.rows.length + (cleanTable extra).rows.length)) := by
  by_cases h : fileId name size ∈ st.uploaded_files_processed
  · refine ⟨by simp [merge_upload, h], by simp [merge_upload, h], fun hn => absurd h hn⟩
  · refine ⟨by simp [merge_upload, h], by simp [merge_upload, h], fun _ => ?_⟩
    simp [merge_upload, h]

/-- Witness for `c6_merge_idempotent`: a first merge of a fresh fingerprint
into a one-row store appends the cleaned upload's rows. -/
theorem c6_merge_idempotent_witness :
    (merge_upload ⟨⟨["c"], [["1"]]⟩, []⟩ "f.csv" 7 ⟨["c"], [["2"]]⟩).1.locations_df.rows =
      [["1"]] ++ (cleanTable ⟨["c"], [["2"]]⟩).rows :=
  ((c6_merge_idempotent ⟨⟨["c"], [["1"]]⟩, []⟩ "f.csv" 7 ⟨["c"], [["2"]]⟩
    ⟨["c"], [["2"]]⟩).2.2 (by decide)).1

/-- A cell selected by projecting a row onto kept column indices is a cell of
the original row (or the `getD` default on a ragged row). -/
theorem projCell_mem (keep : List Nat) (r : List String) :
    ∀ c ∈ keep.map (fun i => r.getD i ""), c ∈ r ∨ c = "" := by
  intro c hc
  obtain ⟨i, _, hi⟩ := List.mem_map.mp hc
  by_cases h : i < r.length
  · left
    rw [← hi, List.getD_eq_getElem?_getD, List.getElem?_eq_getElem h]
    exact List.getElem_mem h
  · right
    rw [← hi, List.getD_eq_getElem?_getD, List.getElem?_eq_none (le_of_not_lt h)]
    rfl

/-- **C9**: the column-cleaning step does not touch the row data: the session
store holds the same row sequence after the in-place column re-labelling, and
the cleaned table has exactly one output row per input row, each of whose
cells is copied verbatim from the corresponding input row (name trimming
applies to column names only, never to cell data). -/
theorem c9_clean_pure (s : SessionState) (t : Table) :
    (renderLoadStep s).1.locations_df.rows = s.locations_df.rows ∧
    (cleanTable t).rows.length = t.rows.length ∧
    List.Forall₂ (fun ro rc => ∀ c ∈ rc, c ∈ ro ∨ c = "") t.rows
      (cleanTable t).rows := by
  refine ⟨rfl, by simp [cleanTable], ?_⟩
  simp only [cleanTable]
  rw [List.forall₂_map_right_iff, List.forall₂_same]
  intro r _
  exact projCell_mem _ r

/-- `pd.to_numeric(errors='coerce')` coerces the sentinel string to NaN, so
the explicit `!= "Not available"` filter of `create_map` is subsumed. -/
theorem parseNum_notAvailable : parseNum "Not available" = PNum.nan := by
  with_unfolding_all decide

/-- The coordinate-cleaning chain of `create_map` keeps exactly the rows
satisfying `keptRow`, coercing them with `toNumRow`. -/
theorem coordClean_eq (df : List PlaceRecord) :
    coordClean df = (df.filter keptRow).map toNumRow := by
  simp only [coordClean]
  rw [List.filter_map, List.filter_map, List.filter_filter, List.filter_filter]
  refine congrArg _ (List.filter_congr ?_)
  intro r _
  by_cases h : r.latitude = "Not available"
  · simp [keptRow, h, toNumRow, Function.comp, parseNum_notAvailable]
  · simp only [keptRow, toNumRow, Function.comp]
    simp [h]
    generalize decide (parseNum r.latitude = PNum.fin 0) = a
    generalize decide (parseNum r.longitude = PNum.fin 0) = b
    generalize decide (parseNum r.latitude = PNum.nan) = c
    generalize decide (parseNum r.longitude = PNum.nan) = d
    revert a b c d
    decide

/-- **C10**: `create_map` reaches the `return st.pydeck_chart(deck)` with the
local `deck` unassigned — i.e. raises `UnboundLocalError` — exactly when no
row both survives the coordinate cleaning and has `label_type = 'PREF'`; the
error is reachable at the public interface, e.g. for a table holding only an
`ALT` row with perfectly valid coordinates. -/
theorem c10_unbound_local :
    (∀ df : List PlaceRecord,
      create_map df = Except.error "UnboundLocalError: deck" ↔
        ∀ r ∈ df, ¬(keptRow r = true ∧ r.label_type = "PREF")) ∧
    create_map [⟨"G1", "L", "P", "ALT", "1.0", "2.0"⟩] =
      Except.error "UnboundLocalError: deck" := by
  constructor
  · intro df
    constructor
    · intro he r hrdf hrp
      have hmem : toNumRow r ∈
          (coordClean df).filter (fun nr => nr.label_type = "PREF") := by
        rw [coordClean_eq]
        refine List.mem_filter.mpr
          ⟨List.mem_map_of_mem _ (List.mem_filter.mpr ⟨hrdf, hrp.1⟩), ?_⟩
        simp [toNumRow, hrp.2]
      have hlen : 0 <
          ((coordClean df).filter (fun nr => nr.label_type = "PREF")).length :=
        List.length_pos.mpr (List.ne_nil_of_mem hmem)
      simp [create_map, hlen] at he
    · intro h
      have h2 : (df.filter keptRow).filter
          ((fun nr : NumRow => nr.label_type = "PREF") ∘ toNumRow) = [] := by
        refine List.filter_eq_nil_iff.mpr ?_
        intro r hr hp
        obtain ⟨hrdf, hrk⟩ := List.mem_filter.mp hr
        exact h r hrdf ⟨hrk, by simpa [toNumRow] using hp⟩
      have hnil : (coordClean df).filter (fun nr => nr.label_type = "PREF") = [] := by
        rw [coordClean_eq, List.filter_map, h2, List.map_nil]
      simp [create_map, hnil]
  · with_unfolding_all decide

/-- **C1**: the search pipeline sorts by score descending, truncates to
`top_n`, and only afterwards filters out scores `≤ 0.3`.  Consequently every
returned record scores above `0.3`; and in the concrete store `exStore`
(ten bonus records scoring `1.1` and `altRec` scoring `0.8`, hence ranked
11th), `altRec` is absent from the results with `top_n = 10` even though its
score `0.8` exceeds the threshold — while `top_n = 11` does return it. -/
theorem c1_truncate_then_filter :
    (∀ (df : List PlaceRecord) (q : String) (n : Nat),
      ∀ r ∈ search_locations df q n, (3 : ℚ) / 10 < r.score) ∧
    (∀ (df : List PlaceRecord) (q : String) (n : Nat), q ≠ "" →
      search_locations df q n =
        ((sortByScoreDesc (df.map (scoreRecord q))).take n).filter
          (fun r => (3 : ℚ) / 10 < r.score)) ∧
    (∀ l : List ScoredRecord,
      List.Pairwise (fun x y => y.score ≤ x.score) (sortByScoreDesc l)) ∧
    (scoreRecord "ab" altRec).score = 4 / 5 ∧ (3 : ℚ) / 10 < 4 / 5 ∧
    altRec ∈ exStore ∧
    (∀ r ∈ search_locations exStore "ab" 10, r.glob_id ≠ "GX") ∧
    (∃ r ∈ search_locations exStore "ab" 11, r.glob_id = "GX") := by
  refine ⟨?_, ?_, ?_, ?_⟩
  · intro df q n r hr
    by_cases hq : q = ""
    · rw [hq] at hr; simp [search_locations] at hr
    · rw [search_locations, if_neg hq] at hr
      exact of_decide_eq_true (List.mem_filter.mp hr).2
  · intro df q n hq
    rw [search_locations, if_neg hq]
  · intro l
    exact List.sorted_insertionSort scoreGE l
  · with_unfolding_all decide

/-- Witness for `c1_truncate_then_filter`: its first two conjuncts applied to
a concrete one-record store and non-empty query. -/
theorem c1_truncate_then_filter_witness :
    (3 : ℚ) / 10 < (scoreRecord "ab" bonusRec).score ∧
    search_locations [bonusRec] "ab" 5 =
      ((sortByScoreDesc ([bonusRec].map (scoreRecord "ab"))).take 5).filter
        (fun r => (3 : ℚ) / 10 < r.score) :=
  ⟨c1_truncate_then_filter.1 [bonusRec] "ab" 5 (scoreRecord "ab" bonusRec)
      (by with_unfolding_all decide),
    c1_truncate_then_filter.2.1 [bonusRec] "ab" 5 (by decide)⟩

/-! ### Window invariants of `find_longest_match`

These lemmas show that the block returned by `find_longest_match` lies inside
the window that was searched; they bound the matching-block total and hence
the ratio. -/

namespace Difflib

theorem inWindow_mk {alo ahi blo bhi bi bj bs : Nat} (h1 : alo ≤ bi)
    (h2 : bi + bs ≤ ahi) (h3 : blo ≤ bj) (h4 : bj + bs ≤ bhi) :
    InWindow alo ahi blo bhi ⟨bi, bj, bs⟩ := ⟨h1, h2, h3, h4⟩

theorem innerRow_bounds {alo ahi blo bhi i : Nat} (hi1 : alo ≤ i)
    (hi2 : i < ahi) (j2len : Nat → Nat)
    (hj2 : ∀ j, j2len j ≤ i - alo ∧ j2len j ≤ j + 1 - blo) :
    ∀ (js : List Nat) (nj : Nat → Nat) (st : MatchBlock),
      InWindow alo ahi blo bhi st →
      (∀ j, nj j ≤ i + 1 - alo ∧ nj j ≤ j + 1 - blo) →
      InWindow alo ahi blo bhi (innerRow blo bhi i j2len js nj st).2 ∧
        (∀ j, (innerRow blo bhi i j2len js nj st).1 j ≤ i + 1 - alo ∧
          (innerRow blo bhi i j2len js nj st).1 j ≤ j + 1 - blo) := by
  intro js
  induction js with
  | nil => intro nj st hst hnj; exact ⟨hst, hnj⟩
  | cons j js ih =>
    intro nj st hst hnj
    simp only [innerRow]
    split
    · exact ih nj st hst hnj
    · split
      · exact ⟨hst, hnj⟩
      · next hb1 hb2 =>
        have hblo : blo ≤ j := by omega
        have hbhi : j < bhi := by omega
        have hk1 : (if j = 0 then 0 else j2len (j - 1)) + 1 ≤ i + 1 - alo := by
          by_cases hj0 : j = 0
          · simp [hj0]; omega
          · have := (hj2 (j - 1)).1
            simp [hj0]; omega
        have hk2 : (if j = 0 then 0 else j2len (j - 1)) + 1 ≤ j + 1 - blo := by
          by_cases hj0 : j = 0
          · subst hj0; simp; omega
          · have := (hj2 (j - 1)).2
            simp [hj0]; omega
        have hk0 : 1 ≤ (if j = 0 then 0 else j2len (j - 1)) + 1 :=
          Nat.le_add_left 1 _
        set k := (if j = 0 then 0 else j2len (j - 1)) + 1 with hk
        refine ih _ _ ?_ ?_
        · by_cases hup : st.bestsize < k
          · rw [if_pos hup]
            obtain ⟨h1, h2, h3, h4⟩ := hst
            refine ⟨?_, ?_, ?_, ?_⟩
            · show alo ≤ i + 1 - k
              omega
            · show (i + 1 - k) + k ≤ ahi
              omega
            · show blo ≤ j + 1 - k
              omega
            · show (j + 1 - k) + k ≤ bhi
              omega
          · rw [if_neg hup]
            exact hst
        · intro x
          by_cases hx : x = j
          · rw [hx, if_pos rfl]
            exact ⟨hk1, hk2⟩
          · rw [if_neg hx]
            exact hnj x

theorem dpLoop_bounds (a : List Char) (bj : Char → List Nat)
    {alo ahi blo bhi : Nat} :
    ∀ (n i : Nat) (j2len : Nat → Nat) (st : MatchBlock),
      alo ≤ i → i + n ≤ ahi →
      InWindow alo ahi blo bhi st →
      (∀ j, j2len j ≤ i - alo ∧ j2len j ≤ j + 1 - blo) →
      InWindow alo ahi blo bhi (dpLoop a bj blo bhi i n j2len st) := by
  intro n
  induction n with
  | zero => intro i j2len st _ _ hst _; exact hst
  | succ n ih =>
    intro i j2len st hi1 hi2 hst hj2
    simp only [dpLoop]
    have h := innerRow_bounds hi1 (by omega) j2len hj2
      (bj (a.getD i 'a')) (fun _ => 0) st hst
      (fun j => ⟨Nat.zero_le _, Nat.zero_le _⟩)
    exact ih (i + 1) _ _ (by omega) (by omega) h.1
      (fun j => ⟨by have := (h.2 j).1; omega, (h.2 j).2⟩)

theorem extendLeft_bounds (a b : List Char) {alo ahi blo bhi : Nat} :
    ∀ (fuel : Nat) (st : MatchBlock), InWindow alo ahi blo bhi st →
      InWindow alo ahi blo bhi (extendLeft a b alo blo fuel st) := by
  intro fuel
  induction fuel with
  | zero => intro st h; exact h
  | succ fuel ih =>
    intro st h
    simp only [extendLeft]
    split
    · next hc =>
      obtain ⟨h1, h2, h3, h4⟩ := h
      exact ih _ (inWindow_mk (by omega) (by omega) (by omega) (by omega))
    · exact h

theorem extendRight_bounds (a b : List Char) {alo ahi blo bhi : Nat} :
    ∀ (fuel : Nat) (st : MatchBlock), InWindow alo ahi blo bhi st →
      InWindow alo ahi blo bhi (extendRight a b ahi bhi fuel st) := by
  intro fuel
  induction fuel with
  | zero => intro st h; exact h
  | succ fuel ih =>
    intro st h
    simp only [extendRight]
    split
    · next hc =>
      obtain ⟨h1, h2, h3, h4⟩ := h
      exact ih _ (inWindow_mk (by omega) (by omega) (by omega) (by omega))
    · exact h

theorem find_longest_match_bounds (a b : List Char) (bj : Char → List Nat)
    {alo ahi blo bhi : Nat} (h1 : alo ≤ ahi) (h2 : blo ≤ bhi) :
    InWindow alo ahi blo bhi (find_longest_match a b bj alo ahi blo bhi) := by
  unfold find_longest_match
  apply extendRight_bounds
  apply extendLeft_bounds
  exact dpLoop_bounds a bj (ahi - alo) alo (fun _ => 0) ⟨alo, blo, 0⟩
    (le_refl _) (by omega)
    (inWindow_mk (le_refl _) (by omega) (le_refl _) (by omega))
    (fun j => ⟨Nat.zero_le _, Nat.zero_le _⟩)

theorem extendLeft_stuck (a b : List Char) (alo blo : Nat) (fuel : Nat)
    (st : MatchBlock)
    (h : ¬(alo < st.besti ∧ blo < st.bestj ∧
      a.getD (st.besti - 1) 'a' = b.getD (st.bestj - 1) 'a')) :
    extendLeft a b alo blo fuel st = st := by
  cases fuel with
  | zero => rfl
  | succ fuel => simp only [extendLeft, if_neg h]

theorem extendRight_stuck (a b : List Char) (ahi bhi : Nat) (fuel : Nat)
    (st : MatchBlock)
    (h : ¬(st.besti + st.bestsize < ahi ∧ st.bestj + st.bestsize < bhi ∧
      a.getD (st.besti + st.bestsize) 'a' = b.getD (st.bestj + st.bestsize) 'a')) :
    extendRight a b ahi bhi fuel st = st := by
  cases fuel with
  | zero => rfl
  | succ fuel => simp only [extendRight, if_neg h]

theorem innerRow_stE {blo bhi : Nat} (i : Nat) (j2len : Nat → Nat)
    (hd : bhi ≤ blo) :
    ∀ (js : List Nat) (nj : Nat → Nat) (st : MatchBlock),
      (innerRow blo bhi i j2len js nj st).2 = st := by
  intro js
  induction js with
  | nil => intro nj st; rfl
  | cons j js ih =>
    intro nj st
    simp only [innerRow]
    split
    · exact ih _ _
    · split
      · rfl
      · next hb1 hb2 => exact absurd (by omega : bhi ≤ j) hb2

theorem dpLoop_stE (a : List Char) (bj : Char → List Nat) {blo bhi : Nat}
    (hd : bhi ≤ blo) :
    ∀ (n i : Nat) (j2len : Nat → Nat) (st : MatchBlock),
      dpLoop a bj blo bhi i n j2len st = st := by
  intro n
  induction n with
  | zero => intro i j2len st; rfl
  | succ n ih =>
    intro i j2len st
    simp only [dpLoop]
    rw [innerRow_stE i j2len hd]
    exact ih _ _ _

theorem find_longest_match_degenerate (a b : List Char) (bj : Char → List Nat)
    {alo ahi blo bhi : Nat} (hd : ahi ≤ alo ∨ bhi ≤ blo) :
    find_longest_match a b bj alo ahi blo bhi = ⟨alo, blo, 0⟩ := by
  simp only [find_longest_match]
  cases hd with
  | inl h =>
    have h0 : ahi - alo = 0 := by omega
    rw [h0]
    have hdp : dpLoop a bj blo bhi alo 0 (fun _ => 0) ⟨alo, blo, 0⟩ =
        ⟨alo, blo, 0⟩ := rfl
    rw [hdp]
    rw [extendLeft_stuck a b alo blo _ _ (fun hc => absurd hc.1 (lt_irrefl _))]
    exact extendRight_stuck a b ahi bhi _ _
      (fun hc => absurd hc.1 (by show ¬(alo + 0 < ahi); omega))
  | inr h =>
    rw [dpLoop_stE a bj h]
    rw [extendLeft_stuck a b alo blo _ _ (fun hc => absurd hc.2.1 (lt_irrefl _))]
    exact extendRight_stuck a b ahi bhi _ _
      (fun hc => absurd hc.2.1 (by show ¬(blo + 0 < bhi); omega))

theorem matchTotalF_le (a b : List Char) (bj : Char → List Nat) :
    ∀ (fuel alo ahi blo bhi : Nat),
      matchTotalF a b bj fuel alo ahi blo bhi ≤ ahi - alo ∧
        matchTotalF a b bj fuel alo ahi blo bhi ≤ bhi - blo := by
  intro fuel
  induction fuel with
  | zero => intro alo ahi blo bhi; exact ⟨Nat.zero_le _, Nat.zero_le _⟩
  | succ fuel ih =>
    intro alo ahi blo bhi
    simp only [matchTotalF]
    split
    · exact ⟨Nat.zero_le _, Nat.zero_le _⟩
    · next hns =>
      have hw : InWindow alo ahi blo bhi
          (find_longest_match a b bj alo ahi blo bhi) := by
        by_cases hdg : ahi ≤ alo ∨ bhi ≤ blo
        · exact absurd (congrArg MatchBlock.bestsize
            (find_longest_match_degenerate a b bj hdg)) hns
        · push_neg at hdg
          exact find_longest_match_bounds a b bj (by omega) (by omega)
      obtain ⟨ha1, ha2, hb1, hb2⟩ := hw
      have l1 := ih alo (find_longest_match a b bj alo ahi blo bhi).besti blo
        (find_longest_match a b bj alo ahi blo bhi).bestj
      have l2 := ih ((find_longest_match a b bj alo ahi blo bhi).besti +
          (find_longest_match a b bj alo ahi blo bhi).bestsize) ahi
        ((find_longest_match a b bj alo ahi blo bhi).bestj +
          (find_longest_match a b bj alo ahi blo bhi).bestsize) bhi
      exact ⟨by omega, by omega⟩

/-- The matching-block total is at most the length of either string. -/
theorem matchesOf_le (a b : List Char) :
    matchesOf a b ≤ a.length ∧ matchesOf a b ≤ b.length := by
  have h := matchTotalF_le a b (b2j b) (a.length + b.length + 1) 0 a.length 0
    b.length
  simpa [matchesOf] using h

end Difflib

/-- **C2**: `fuzzy_match_score` is `SequenceMatcher.ratio()` over the
lowercased strings: whenever the two strings are not both empty it equals
`2 * M / T`, where `M` is the total length of the matching blocks
(`Difflib.matchesOf`, the non-overlapping common substrings found by the
recursive longest-match search) and `T` is the sum of the two lengths; it
always lies in `[0, 1]`; and it depends only on the lowercased strings
(case-insensitivity).  Determinism is immediate: the embedding is a function
of its two arguments. -/
theorem c2_score_is_ratcliff :
    (∀ s1 s2 : String, (lowerData s1).length + (lowerData s2).length ≠ 0 →
      fuzzy_match_score s1 s2 =
        2 * (Difflib.matchesOf (lowerData s1) (lowerData s2) : ℚ) /
          (((lowerData s1).length : ℚ) + ((lowerData s2).length : ℚ))) ∧
    (∀ s1 s2 : String,
      0 ≤ fuzzy_match_score s1 s2 ∧ fuzzy_match_score s1 s2 ≤ 1) ∧
    (∀ s1 s2 t1 t2 : String, lowerData s1 = lowerData t1 →
      lowerData s2 = lowerData t2 →
      fuzzy_match_score s1 s2 = fuzzy_match_score t1 t2) := by
  refine ⟨?_, ?_, ?_⟩
  · intro s1 s2 hT
    simp only [fuzzy_match_score, Difflib.ratioOf, Difflib.calcRatioOf,
      if_neg hT]
    push_cast
    ring
  · intro s1 s2
    simp only [fuzzy_match_score, Difflib.ratioOf, Difflib.calcRatioOf]
    by_cases hT : (lowerData s1).length + (lowerData s2).length = 0
    · rw [if_pos hT]
      norm_num
    · rw [if_neg hT]
      have hM := Difflib.matchesOf_le (lowerData s1) (lowerData s2)
      have hpos : (0 : ℚ) <
          (((lowerData s1).length + (lowerData s2).length : Nat) : ℚ) := by
        exact_mod_cast Nat.pos_of_ne_zero hT
      constructor
      · apply div_nonneg _ (le_of_lt hpos)
        positivity
      · rw [div_le_one hpos]
        have h2 : 2 * Difflib.matchesOf (lowerData s1) (lowerData s2) ≤
            (lowerData s1).length + (lowerData s2).length := by omega
        exact_mod_cast h2
  · intro s1 s2 t1 t2 h1 h2
    simp only [fuzzy_match_score, h1, h2]

/-- Witness for `c2_score_is_ratcliff`: the `2 M / T` formula evaluated on a
concrete pair of strings. -/
theorem c2_score_is_ratcliff_witness :
    fuzzy_match_score "Abarkuh" "aab" =
      2 * (Difflib.matchesOf (lowerData "Abarkuh") (lowerData "aab") : ℚ) /
        (((lowerData "Abarkuh").length : ℚ) + ((lowerData "aab").length : ℚ)) :=
  c2_score_is_ratcliff.1 "Abarkuh" "aab" (by with_unfolding_all decide)

/-- **C5, counterexample**: `fuzzy_match_score` is *not* symmetric.  On the
pair `"abecd"` / `"cdabze"` the two orders give `6/11` and `4/11`: scanning
`"abecd"` against `"cdabze"` picks the longest block `"ab"` first (earliest
start in the first string), leaving `"e"` recoverable on the right, while the
swapped order picks `"cd"` first, after which only the block itself remains.
(Checked against CPython's `difflib`.) -/
theorem c5_symmetry_cex :
    fuzzy_match_score "abecd" "cdabze" ≠ fuzzy_match_score "cdabze" "abecd" := by
  with_unfolding_all decide

/-! ### Self-comparison is perfect

For `SequenceMatcher(None, q, q)` the dynamic-programming scan always keeps a
diagonal best block (an off-diagonal run of length `k` ending at `(i, j)`
implies a visible run of length `≥ k` ending at the earlier row `min i j`,
which already pushed `bestsize` to `≥ k`), and the two extension loops then
stretch a diagonal block to the whole string, so the ratio is `1`. -/

namespace Difflib

theorem mem_positions {b : List Char} {c : Char} {j : Nat} :
    j ∈ positions b c ↔ j < b.length ∧ b.getD j 'a' = c := by
  simp [positions, List.mem_filter, List.mem_range]

theorem positions_sorted (b : List Char) (c : Char) :
    List.Pairwise (· < ·) (positions b c) :=
  List.Pairwise.filter _ (List.pairwise_lt_range b.length)

theorem b2j_cases (b : List Char) (c : Char) :
    b2j b c = [] ∨ b2j b c = positions b c := by
  simp only [b2j]
  split
  · exact Or.inl rfl
  · exact Or.inr rfl

theorem b2j_eq_positions {b : List Char} {c : Char}
    (h : visChar b c = true) : b2j b c = positions b c := by
  rcases b2j_cases b c with h0 | h0
  · exact absurd (by simpa [visChar] using h0) (by simpa [visChar] using h)
  · exact h0

theorem rvis_le (b : List Char) : ∀ i, rvis b i ≤ i + 1 := by
  intro i
  induction i with
  | zero => rw [rvis]; split <;> omega
  | succ i ih => rw [rvis]; split <;> omega

theorem rvis_vis {b : List Char} {i : Nat}
    (h : visChar b (b.getD i 'a') = true) :
    rvis b i = (if i = 0 then 0 else rvis b (i - 1)) + 1 := by
  cases i with
  | zero => rw [rvis, if_pos h, if_pos rfl]
  | succ i =>
    rw [rvis, if_pos h, if_neg (Nat.succ_ne_zero i)]
    simp

theorem rvis_invis {b : List Char} {i : Nat}
    (h : ¬visChar b (b.getD i 'a') = true) :
    rvis b i = 0 := by
  cases i with
  | zero => rw [rvis, if_neg h]
  | succ i => rw [rvis, if_neg h]

/-- A run value chained from the previous row is bounded by the visible run
ending at the current row `i` of `a = l`. -/
theorem chain_le_rvis_row {l : List Char} {i : Nat} (j : Nat)
    (j2len : Nat → Nat)
    (hj2a : ∀ x, j2len x ≤ (if i = 0 then 0 else rvis l (i - 1)))
    (hvis : visChar l (l.getD i 'a') = true) :
    (if j = 0 then 0 else j2len (j - 1)) + 1 ≤ rvis l i := by
  rw [rvis_vis hvis]
  by_cases hj0 : j = 0
  · rw [if_pos hj0]
    exact Nat.add_le_add_right (Nat.zero_le _) 1
  · rw [if_neg hj0]
    exact Nat.add_le_add_right (hj2a (j - 1)) 1

/-- A run value chained from the previous row is bounded by the visible run
ending at the current column `j` of `b = l`. -/
theorem chain_le_rvis_col {l : List Char} (_i : Nat) {j : Nat}
    (j2len : Nat → Nat) (hj2b : ∀ x, j2len x ≤ rvis l x)
    (hvj : visChar l (l.getD j 'a') = true) :
    (if j = 0 then 0 else j2len (j - 1)) + 1 ≤ rvis l j := by
  by_cases hj0 : j = 0
  · subst hj0
    rw [if_pos rfl, rvis_vis hvj, if_pos rfl]
  · rw [if_neg hj0, rvis_vis hvj, if_neg hj0]
    exact Nat.add_le_add_right (hj2b (j - 1)) 1

/-- Processing the part of a self-comparison row that lies strictly to the
right of the diagonal: once `bestsize` has reached the visible-run length
`rvis l i`, no further update can occur, and the accumulator only gains
values bounded by the visible runs. -/
theorem innerRow_selfPost (l : List Char) (i : Nat)
    (hvis : visChar l (l.getD i 'a') = true) (j2len : Nat → Nat)
    (hj2a : ∀ x, j2len x ≤ (if i = 0 then 0 else rvis l (i - 1)))
    (hj2b : ∀ x, j2len x ≤ rvis l x) :
    ∀ (js : List Nat) (nj : Nat → Nat) (st : MatchBlock),
      (∀ j ∈ js, i < j ∧ j < l.length ∧ l.getD j 'a' = l.getD i 'a') →
      rvis l i ≤ st.bestsize →
      (innerRow 0 l.length i j2len js nj st).2 = st ∧
        (∀ x, (innerRow 0 l.length i j2len js nj st).1 x = nj x ∨
          (i < x ∧ (innerRow 0 l.length i j2len js nj st).1 x ≤ rvis l i ∧
            (innerRow 0 l.length i j2len js nj st).1 x ≤ rvis l x)) := by
  intro js
  induction js with
  | nil => exact fun nj st _ _ => ⟨rfl, fun x => Or.inl rfl⟩
  | cons j js ih =>
    intro nj st hjs hbs
    obtain ⟨hij, hjn, hjc⟩ := hjs j (List.mem_cons_self j js)
    simp only [innerRow]
    rw [if_neg (Nat.not_lt_zero j), if_neg (not_le.mpr hjn)]
    have hvj : visChar l (l.getD j 'a') = true := by rw [hjc]; exact hvis
    have hka := chain_le_rvis_row j j2len hj2a hvis
    have hkb := chain_le_rvis_col i j2len hj2b hvj
    rw [if_neg (by omega :
      ¬ st.bestsize < (if j = 0 then 0 else j2len (j - 1)) + 1)]
    have hres := ih
      (fun x => if x = j then (if j = 0 then 0 else j2len (j - 1)) + 1 else nj x)
      st (fun x hx => hjs x (List.mem_cons_of_mem j hx)) hbs
    refine ⟨hres.1, fun x => ?_⟩
    rcases hres.2 x with h | h
    · rw [h]
      beta_reduce
      by_cases hx : x = j
      · subst hx
        rw [if_pos rfl]
        exact Or.inr ⟨hij, hka, hkb⟩
      · rw [if_neg hx]
        exact Or.inl rfl
    · exact Or.inr h

/-- Processing a full self-comparison row whose character is visible: the
best block stays diagonal, its size reaches at least every visible run ending
at a processed row, and the fresh accumulator records exactly the diagonal
run at the diagonal key. -/
theorem innerRow_selfRow (l : List Char) (i : Nat) (hi : i < l.length)
    (hvis : visChar l (l.getD i 'a') = true) (j2len : Nat → Nat)
    (hj2a : ∀ x, j2len x ≤ (if i = 0 then 0 else rvis l (i - 1)))
    (hj2b : ∀ x, j2len x ≤ rvis l x)
    (hj2d : i = 0 ∨ j2len (i - 1) = rvis l (i - 1)) :
    ∀ (js : List Nat) (nj : Nat → Nat) (st : MatchBlock),
      List.Pairwise (· < ·) js →
      (∀ j ∈ js, j < l.length ∧ l.getD j 'a' = l.getD i 'a') →
      i ∈ js →
      st.besti = st.bestj →
      st.besti + st.bestsize ≤ i →
      (∀ i', i' < i → rvis l i' ≤ st.bestsize) →
      (∀ x, nj x ≤ rvis l i ∧ nj x ≤ rvis l x) →
      ((innerRow 0 l.length i j2len js nj st).2.besti =
          (innerRow 0 l.length i j2len js nj st).2.bestj ∧
        (innerRow 0 l.length i j2len js nj st).2.besti +
          (innerRow 0 l.length i j2len js nj st).2.bestsize ≤ i + 1 ∧
        (∀ i', i' < i + 1 →
          rvis l i' ≤ (innerRow 0 l.length i j2len js nj st).2.bestsize)) ∧
        (∀ x, (innerRow 0 l.length i j2len js nj st).1 x ≤ rvis l i ∧
            (innerRow 0 l.length i j2len js nj st).1 x ≤ rvis l x) ∧
          (innerRow 0 l.length i j2len js nj st).1 i = rvis l i := by
  intro js
  induction js with
  | nil => intro nj st _ _ hmem; cases hmem
  | cons j js ih =>
    intro nj st hpw hjs hmem hdiag hsum hmax hnj
    obtain ⟨hjn, hjc⟩ := hjs j (List.mem_cons_self j js)
    simp only [innerRow]
    rw [if_neg (Nat.not_lt_zero j), if_neg (not_le.mpr hjn)]
    by_cases hji : j = i
    · subst hji
      -- the diagonal (pivot) entry of the row
      have hk : (if j = 0 then 0 else j2len (j - 1)) + 1 = rvis l j := by
        by_cases hj0 : j = 0
        · rw [if_pos hj0, rvis_vis hvis, if_pos hj0]
        · rcases hj2d with h0 | hd
          · exact absurd h0 hj0
          · rw [if_neg hj0, hd, rvis_vis hvis, if_neg hj0]
      have hjtail : ∀ x ∈ js, j < x ∧ x < l.length ∧
          l.getD x 'a' = l.getD j 'a' := by
        intro x hx
        exact ⟨(List.pairwise_cons.mp hpw).1 x hx, (hjs x (List.mem_cons_of_mem j hx)).1,
          (hjs x (List.mem_cons_of_mem j hx)).2⟩
      have hnj2 : ∀ x, (if x = j then (if j = 0 then 0 else j2len (j - 1)) + 1
          else nj x) ≤ rvis l j ∧
          (if x = j then (if j = 0 then 0 else j2len (j - 1)) + 1 else nj x) ≤
            rvis l x := by
        intro x
        by_cases hx : x = j
        · subst hx
          rw [if_pos rfl, hk]
          exact ⟨le_refl _, le_refl _⟩
        · rw [if_neg hx]
          exact hnj x
      by_cases hup : st.bestsize < (if j = 0 then 0 else j2len (j - 1)) + 1
      · rw [if_pos hup]
        have hpost := innerRow_selfPost l j hvis j2len hj2a hj2b js
          (fun x => if x = j then (if j = 0 then 0 else j2len (j - 1)) + 1
            else nj x)
          ⟨j + 1 - ((if j = 0 then 0 else j2len (j - 1)) + 1),
            j + 1 - ((if j = 0 then 0 else j2len (j - 1)) + 1),
            (if j = 0 then 0 else j2len (j - 1)) + 1⟩
          hjtail (le_of_eq hk.symm)
        rw [hpost.1]
        have hrle := rvis_le l j
        refine ⟨⟨rfl, ?_, ?_⟩, ?_, ?_⟩
        · show (j + 1 - ((if j = 0 then 0 else j2len (j - 1)) + 1)) +
            ((if j = 0 then 0 else j2len (j - 1)) + 1) ≤ j + 1
          omega
        · intro i' hi'
          show rvis l i' ≤ (if j = 0 then 0 else j2len (j - 1)) + 1
          rcases Nat.lt_succ_iff_lt_or_eq.mp hi' with h | h
          · exact le_trans (hmax i' h) (le_of_lt hup)
          · subst h
            omega
        · intro x
          rcases hpost.2 x with h | h
          · rw [h]
            beta_reduce
            exact hnj2 x
          · exact ⟨h.2.1, h.2.2⟩
        · rcases hpost.2 j with h | h
          · rw [h]
            beta_reduce
            rw [if_pos rfl, hk]
          · exact absurd h.1 (lt_irrefl j)
      · rw [if_neg hup]
        have hpost := innerRow_selfPost l j hvis j2len hj2a hj2b js
          (fun x => if x = j then (if j = 0 then 0 else j2len (j - 1)) + 1
            else nj x)
          st hjtail (by omega)
        rw [hpost.1]
        refine ⟨⟨hdiag, by omega, ?_⟩, ?_, ?_⟩
        · intro i' hi'
          rcases Nat.lt_succ_iff_lt_or_eq.mp hi' with h | h
          · exact hmax i' h
          · subst h
            omega
        · intro x
          rcases hpost.2 x with h | h
          · rw [h]
            beta_reduce
            exact hnj2 x
          · exact ⟨h.2.1, h.2.2⟩
        · rcases hpost.2 j with h | h
          · rw [h]
            beta_reduce
            rw [if_pos rfl, hk]
          · exact absurd h.1 (lt_irrefl j)
    · -- an entry strictly below the diagonal: no update possible
      have hmemt : i ∈ js := by
        rcases List.mem_cons.mp hmem with h | h
        · exact absurd h.symm hji
        · exact h
      have hjlt : j < i := (List.pairwise_cons.mp hpw).1 i hmemt
      have hvj : visChar l (l.getD j 'a') = true := by rw [hjc]; exact hvis
      have hka := chain_le_rvis_row j j2len hj2a hvis
      have hkb := chain_le_rvis_col i j2len hj2b hvj
      have hble : (if j = 0 then 0 else j2len (j - 1)) + 1 ≤ st.bestsize :=
        le_trans hkb (hmax j hjlt)
      rw [if_neg (by omega :
        ¬ st.bestsize < (if j = 0 then 0 else j2len (j - 1)) + 1)]
      refine ih
        (fun x => if x = j then (if j = 0 then 0 else j2len (j - 1)) + 1
          else nj x)
        st (List.pairwise_cons.mp hpw).2
        (fun x hx => hjs x (List.mem_cons_of_mem j hx)) hmemt hdiag hsum hmax ?_
      intro x
      beta_reduce
      by_cases hx : x = j
      · subst hx
        rw [if_pos rfl]
        exact ⟨hka, hkb⟩
      · rw [if_neg hx]
        exact hnj x

/-- The full dynamic-programming scan of a self-comparison keeps the best
block diagonal, inside the processed rows, and at least as large as every
visible run. -/
theorem dpLoop_self (l : List Char) :
    ∀ (m i : Nat) (j2len : Nat → Nat) (st : MatchBlock),
      i + m = l.length →
      st.besti = st.bestj →
      st.besti + st.bestsize ≤ i →
      (∀ i', i' < i → rvis l i' ≤ st.bestsize) →
      (∀ x, j2len x ≤ (if i = 0 then 0 else rvis l (i - 1))) →
      (∀ x, j2len x ≤ rvis l x) →
      (i = 0 ∨ j2len (i - 1) = rvis l (i - 1)) →
      ((dpLoop l (b2j l) 0 l.length i m j2len st).besti =
          (dpLoop l (b2j l) 0 l.length i m j2len st).bestj ∧
        (dpLoop l (b2j l) 0 l.length i m j2len st).besti +
          (dpLoop l (b2j l) 0 l.length i m j2len st).bestsize ≤ l.length ∧
        (∀ i', i' < l.length →
          rvis l i' ≤ (dpLoop l (b2j l) 0 l.length i m j2len st).bestsize)) := by
  intro m
  induction m with
  | zero =>
    intro i j2len st hsum hdiag hle hmax _ _ _
    simp only [dpLoop]
    exact ⟨hdiag, by omega, fun i' hi' => hmax i' (by omega)⟩
  | succ m ih =>
    intro i j2len st hsum hdiag hle hmax hj2a hj2b hj2d
    simp only [dpLoop]
    by_cases hv : visChar l (l.getD i 'a') = true
    · have hb2j : b2j l (l.getD i 'a') = positions l (l.getD i 'a') :=
        b2j_eq_positions hv
      have hrow := innerRow_selfRow l i (by omega) hv j2len hj2a hj2b hj2d
        (b2j l (l.getD i 'a')) (fun _ => 0) st
        (by rw [hb2j]; exact positions_sorted l _)
        (by
          intro j hj
          rw [hb2j] at hj
          exact ⟨(mem_positions.mp hj).1, (mem_positions.mp hj).2⟩)
        (by
          rw [hb2j]
          exact mem_positions.mpr ⟨by omega, rfl⟩)
        hdiag hle hmax (fun x => ⟨Nat.zero_le _, Nat.zero_le _⟩)
      refine ih (i + 1) _ _ (by omega) hrow.1.1 hrow.1.2.1 hrow.1.2.2 ?_ ?_ ?_
      · intro x
        rw [if_neg (Nat.succ_ne_zero i)]
        exact (hrow.2.1 x).1
      · intro x
        exact (hrow.2.1 x).2
      · exact Or.inr hrow.2.2
    · have hempty : b2j l (l.getD i 'a') = [] := by
        by_contra hne
        exact hv (by simpa [visChar] using hne)
      rw [hempty]
      have hr0 : rvis l i = 0 := rvis_invis hv
      refine ih (i + 1) (fun _ => 0) st (by omega) hdiag (by omega) ?_
        (fun x => Nat.zero_le _) (fun x => Nat.zero_le _) (Or.inr ?_)
      · intro i' hi'
        rcases Nat.lt_succ_iff_lt_or_eq.mp hi' with h | h
        · exact hmax i' h
        · subst h
          rw [hr0]
          exact Nat.zero_le _
      · exact (show rvis l i = 0 from hr0).symm

/-- On identical strings, the leftward extension loop run with fuel equal to
the block's start drags a diagonal block back to the origin. -/
theorem extendLeft_self (l : List Char) :
    ∀ (p s : Nat), extendLeft l l 0 0 p ⟨p, p, s⟩ = ⟨0, 0, p + s⟩ := by
  intro p
  induction p with
  | zero =>
    intro s
    rw [Nat.zero_add]
    rfl
  | succ p ih =>
    intro s
    rw [extendLeft]
    rw [if_pos (show (0 : Nat) <
        (MatchBlock.mk (p + 1) (p + 1) s).besti ∧ (0 : Nat) <
        (MatchBlock.mk (p + 1) (p + 1) s).bestj ∧
        l.getD ((MatchBlock.mk (p + 1) (p + 1) s).besti - 1) 'a' =
          l.getD ((MatchBlock.mk (p + 1) (p + 1) s).bestj - 1) 'a' from
      ⟨Nat.succ_pos p, Nat.succ_pos p, rfl⟩)]
    show extendLeft l l 0 0 p ⟨p, p, s + 1⟩ = ⟨0, 0, p + 1 + s⟩
    rw [ih (s + 1)]
    have h : p + (s + 1) = p + 1 + s := by omega
    rw [h]

/-- On identical strings, the rightward extension loop stretches a block that
starts at the origin to the whole string. -/
theorem extendRight_self (l : List Char) :
    ∀ (fuel k : Nat), k ≤ l.length → l.length ≤ k + fuel →
      extendRight l l l.length l.length fuel ⟨0, 0, k⟩ = ⟨0, 0, l.length⟩ := by
  intro fuel
  induction fuel with
  | zero =>
    intro k h1 h2
    have : k = l.length := by omega
    subst this
    rfl
  | succ fuel ih =>
    intro k h1 h2
    by_cases hk : k < l.length
    · rw [extendRight]
      rw [if_pos (show
          (MatchBlock.mk 0 0 k).besti + (MatchBlock.mk 0 0 k).bestsize <
            l.length ∧
          (MatchBlock.mk 0 0 k).bestj + (MatchBlock.mk 0 0 k).bestsize <
            l.length ∧
          l.getD ((MatchBlock.mk 0 0 k).besti + (MatchBlock.mk 0 0 k).bestsize)
              'a' =
            l.getD ((MatchBlock.mk 0 0 k).bestj +
              (MatchBlock.mk 0 0 k).bestsize) 'a' from
        ⟨show (0 : Nat) + k < l.length by omega,
          show (0 : Nat) + k < l.length by omega, rfl⟩)]
      show extendRight l l l.length l.length fuel ⟨0, 0, k + 1⟩ =
        ⟨0, 0, l.length⟩
      exact ih (k + 1) (by omega) (by omega)
    · have hkn : k = l.length := by omega
      subst hkn
      rw [extendRight]
      rw [if_neg (fun hc => absurd hc.1 (show ¬((MatchBlock.mk 0 0 l.length).besti +
          (MatchBlock.mk 0 0 l.length).bestsize < l.length) by
        show ¬((0 : Nat) + l.length < l.length)
        omega))]

/-- `find_longest_match` on a self-comparison returns the whole string as a
single block (even under the autojunk purge: the dynamic programming yields a
diagonal block and the extension loops, which ignore the purge, stretch it to
the full string). -/
theorem find_longest_match_self (l : List Char) :
    find_longest_match l l (b2j l) 0 l.length 0 l.length =
      ⟨0, 0, l.length⟩ := by
  have hdp := dpLoop_self l l.length 0 (fun _ => 0) ⟨0, 0, 0⟩ (by omega) rfl
    (Nat.le_refl 0) (fun i' hi' => absurd hi' (Nat.not_lt_zero i'))
    (fun x => Nat.zero_le _) (fun x => Nat.zero_le _) (Or.inl rfl)
  simp only [find_longest_match]
  rw [Nat.sub_zero]
  cases hd : dpLoop l (b2j l) 0 l.length 0 l.length (fun _ => 0) ⟨0, 0, 0⟩ with
  | mk bi bj bs =>
    rw [hd] at hdp
    obtain ⟨hdiag, hsum, hmax⟩ := hdp
    have hdiag' : bi = bj := hdiag
    subst hdiag'
    have hsum' : bi + bs ≤ l.length := hsum
    show extendRight l l l.length l.length l.length
      (extendLeft l l 0 0 bi ⟨bi, bi, bs⟩) = ⟨0, 0, l.length⟩
    rw [extendLeft_self l bi bs]
    exact extendRight_self l l.length (bi + bs) hsum' (by omega)

/-- The matching-block total of a self-comparison is the whole length. -/
theorem matchesOf_self (l : List Char) : matchesOf l l = l.length := by
  simp only [matchesOf, matchTotalF]
  rw [find_longest_match_self l]
  by_cases hn : l.length = 0
  · simp [hn]
  · rw [if_neg (show ¬((MatchBlock.mk 0 0 l.length).bestsize = 0) from hn)]
    show l.length + matchTotalF l l (b2j l) (l.length + l.length) 0 0 0 0 +
      matchTotalF l l (b2j l) (l.length + l.length) (0 + l.length) l.length
        (0 + l.length) l.length = l.length
    have h1 := (matchTotalF_le l l (b2j l) (l.length + l.length) 0 0 0 0).1
    have h2 := (matchTotalF_le l l (b2j l) (l.length + l.length) (0 + l.length)
      l.length (0 + l.length) l.length).1
    omega

end Difflib

/-- **C5, amended**: the self-match half of the claim holds in full
generality: for every non-empty string `q`, `fuzzy_match_score q q = 1.0`
(the symmetry half is refuted by `c5_symmetry_cex`). -/
theorem c5_self_match (q : String) (hq : q ≠ "") :
    fuzzy_match_score q q = 1 := by
  have hd : q.data ≠ [] := fun h => hq (String.ext h)
  have hL : (lowerData q).length ≠ 0 := by
    simp only [lowerData, List.length_map]
    exact fun h => hd (List.length_eq_zero.mp h)
  simp only [fuzzy_match_score, Difflib.ratioOf, Difflib.calcRatioOf,
    Difflib.matchesOf_self]
  rw [if_neg (by omega : ¬((lowerData q).length + (lowerData q).length = 0))]
  rw [div_eq_one_iff_eq (by
    exact_mod_cast (by omega : (lowerData q).length + (lowerData q).length ≠ 0))]
  push_cast
  ring

/-- Witness for `c5_self_match`: a concrete non-empty self-match scores `1`. -/
theorem c5_self_match_witness : fuzzy_match_score "Abarkuh" "Abarkuh" = 1 :=
  c5_self_match "Abarkuh" (by decide)

/-- Witness for `c10_unbound_local`: the empty table reaches the unbound
local error. -/
theorem c10_unbound_local_witness :
    create_map [] = Except.error "UnboundLocalError: deck" :=
  (c10_unbound_local.1 []).mpr (fun r hr => absurd hr (List.not_mem_nil r))

/-- **C7, counterexample**: the claim's usable-location condition requires the
coordinates to parse as *finite* numbers, and asserts that every row failing
it is excluded from map rendering.  But `pd.to_numeric(errors='coerce')`
parses the string `"inf"` to an IEEE infinity, which `dropna` does not drop:
the `PREF` record `infRec` with latitude `"inf"` fails the usable-location
condition yet is kept by `create_map` and is the sole row of the rendered
deck. -/
theorem c7_finite_cex :
    usableLocationSpec infRec = false ∧
    create_map [infRec] =
      Except.ok ⟨[⟨"G3", "L", "L", "PREF", PNum.inf false, PNum.fin 1⟩]⟩ := by
  with_unfolding_all decide

/-- Updating both coordinate strings of a record does not change how it is
scored, only the coordinates carried through. -/
theorem scoreRecord_setCoords (q : String) (lat lon : String)
    (r : PlaceRecord) :
    scoreRecord q { r with latitude := lat, longitude := lon } =
      { scoreRecord q r with latitude := lat, longitude := lon } := rfl

theorem orderedInsert_setCoords (lat lon : String) (a : ScoredRecord) :
    ∀ l : List ScoredRecord,
      List.orderedInsert scoreGE { a with latitude := lat, longitude := lon }
        (l.map (fun r => { r with latitude := lat, longitude := lon })) =
      (List.orderedInsert scoreGE a l).map
        (fun r => { r with latitude := lat, longitude := lon }) := by
  intro l
  induction l with
  | nil => rfl
  | cons b t ih =>
    simp only [List.map_cons, List.orderedInsert]
    by_cases h : scoreGE a b
    · rw [if_pos h, if_pos (show scoreGE
        { a with latitude := lat, longitude := lon }
        { b with latitude := lat, longitude := lon } from h)]
      simp [List.map_cons]
    · rw [if_neg h, if_neg (show ¬scoreGE
        { a with latitude := lat, longitude := lon }
        { b with latitude := lat, longitude := lon } from h)]
      rw [List.map_cons, ih]

theorem sortByScoreDesc_setCoords (lat lon : String) :
    ∀ l : List ScoredRecord,
      sortByScoreDesc (l.map (fun r =>
          { r with latitude := lat, longitude := lon })) =
        (sortByScoreDesc l).map (fun r =>
          { r with latitude := lat, longitude := lon }) := by
  intro l
  induction l with
  | nil => rfl
  | cons a t ih =>
    simp only [sortByScoreDesc, List.insertionSort, List.map_cons] at ih ⊢
    rw [ih, orderedInsert_setCoords]

/-- `search_locations` applies no coordinate filter: overwriting every
record's coordinates permutes nothing and drops nothing — the results are the
same records with the overwritten coordinates carried through. -/
theorem search_coord_frame (df : List PlaceRecord) (q : String) (n : Nat)
    (lat lon : String) :
    search_locations (df.map (fun r =>
        { r with latitude := lat, longitude := lon })) q n =
      (search_locations df q n).map (fun r =>
        { r with latitude := lat, longitude := lon }) := by
  by_cases hq : q = ""
  · subst hq
    simp [search_locations]
  · simp only [search_locations, if_neg hq]
    rw [List.map_map]
    have hcomp : (scoreRecord q) ∘ (fun r : PlaceRecord =>
        { r with latitude := lat, longitude := lon }) =
        (fun r : ScoredRecord => { r with latitude := lat, longitude := lon })
          ∘ (scoreRecord q) := by
      funext r
      rfl
    rw [hcomp, ← List.map_map, sortByScoreDesc_setCoords, ← List.map_take,
      List.filter_map]
    congr 1

/-- **C7, amended**: a row survives `create_map`'s coordinate cleaning iff
both coordinates parse to something other than NaN (finite *or infinite*) and
are not both exactly the finite zero; the rendered deck consists exactly of
the surviving `PREF` rows; and `search_locations` applies no coordinate
filter — coordinates are carried through untouched, and a record whose
coordinates are unparseable (`"Not available"`) still appears in results. -/
theorem c7_usable_location :
    (∀ r : PlaceRecord, keptRow r = true ↔
      (parseNum r.latitude ≠ PNum.nan ∧ parseNum r.longitude ≠ PNum.nan ∧
        ¬(parseNum r.latitude = PNum.fin 0 ∧
          parseNum r.longitude = PNum.fin 0))) ∧
    (∀ (df : List PlaceRecord) (d : MapDeck), create_map df = Except.ok d →
      d.data = ((df.filter keptRow).map toNumRow).filter
        (fun nr => nr.label_type = "PREF")) ∧
    (∀ (df : List PlaceRecord) (q : String) (n : Nat) (lat lon : String),
      search_locations (df.map (fun r =>
          { r with latitude := lat, longitude := lon })) q n =
        (search_locations df q n).map (fun r =>
          { r with latitude := lat, longitude := lon })) ∧
    search_locations [naRec] "ab" 10 =
      [⟨"G2", "ab", "ab", "PREF", "Not available", "x", 11 / 10⟩] := by
  refine ⟨?_, ?_, search_coord_frame, ?_⟩
  · intro r
    simp [keptRow]
    tauto
  · intro df d hok
    rw [create_map] at hok
    by_cases hlen : 0 <
        ((coordClean df).filter (fun nr => nr.label_type = "PREF")).length
    · rw [if_pos hlen] at hok
      cases hok
      rw [← coordClean_eq]
    · rw [if_neg hlen] at hok
      cases hok
  · with_unfolding_all decide

/-- Witness for `c7_usable_location`: the deck-characterisation conjunct
applied to a concrete table whose only row is a valid `PREF` record. -/
theorem c7_usable_location_witness :
    (MapDeck.mk [toNumRow bonusRec]).data =
      (([bonusRec].filter keptRow).map toNumRow).filter
        (fun nr => nr.label_type = "PREF") :=
  c7_usable_location.2.1 [bonusRec] ⟨[toNumRow bonusRec]⟩
    (by with_unfolding_all decide)

end GPlaces
